import Mathlib

/-
Verification of `src/backend/utils.py` (speech-to-text adapter layer).

Times are modelled as exact rationals (ℚ).  The merging routine `concat`
calls into `pyannote.core` (`Annotation.update`, `Annotation.support`,
`Timeline.support`, `Segment.__xor__`, `Segment.__or__`, `SlidingWindow`,
`SlidingWindowFeature`) and `numpy.concatenate`; those library operations
are embedded here following their actual implementations, since they are
the code that runs when `concat` executes.

Concrete rational constants are written with `mkRat` (e.g. `mkRat 203 100`
for 2.03) so that they evaluate inside the kernel.
-/

/-- pyannote.core SEGMENT_PRECISION = 1e-6: a segment is "empty" (falsy)
when its duration does not exceed this precision. -/
def SEGMENT_PRECISION : ℚ := mkRat 1 1000000

/-- pyannote.core.Segment: a time interval.  The Python field `end` is a
Lean keyword, so it is called `stop` here. -/
structure Segment where
  start : ℚ
  stop : ℚ
deriving DecidableEq

/-- Python truthiness of a Segment (`Segment.__bool__`): true iff the
duration exceeds SEGMENT_PRECISION. -/
def Segment.toBool (s : Segment) : Bool :=
  decide (SEGMENT_PRECISION < s.stop - s.start)

/-- Segment.duration: `self.end - self.start if self else 0.`. -/
def Segment.duration (s : Segment) : ℚ :=
  if s.toBool then s.stop - s.start else 0

/-- Segment.__xor__ (gap): `Segment(start=min(self.end, other.end),
end=max(self.start, other.start))`. -/
def Segment.gap (s t : Segment) : Segment :=
  ⟨min s.stop t.stop, max s.start t.start⟩

/-- Segment.__or__ (union): `Segment(start=min(self.start, other.start),
end=max(self.end, other.end))`. -/
def Segment.union (s t : Segment) : Segment :=
  ⟨min s.start t.start, max s.stop t.stop⟩

/-- The (start, stop)-lexicographic order on segments; pyannote Segments
are `@dataclass(order=True)`, ordered this way, and SortedList keeps
timelines sorted by it. -/
def SegLe (s t : Segment) : Prop :=
  s.start < t.start ∨ (s.start = t.start ∧ s.stop ≤ t.stop)

instance : DecidableRel SegLe := fun s t => by
  unfold SegLe; infer_instance

instance : IsTotal Segment SegLe where
  total s t := by
    rcases lt_trichotomy s.start t.start with h | h | h
    · exact Or.inl (Or.inl h)
    · rcases le_total s.stop t.stop with h2 | h2
      · exact Or.inl (Or.inr ⟨h, h2⟩)
      · exact Or.inr (Or.inr ⟨h.symm, h2⟩)
    · exact Or.inr (Or.inl h)

instance : IsTrans Segment SegLe where
  trans s t u hst htu := by
    rcases hst with h | ⟨h1, h2⟩ <;> rcases htu with h' | ⟨h1', h2'⟩
    · exact Or.inl (h.trans h')
    · exact Or.inl (h1' ▸ h)
    · exact Or.inl (h1 ▸ h')
    · exact Or.inr ⟨h1.trans h1', h2.trans h2'⟩

/-- The pyannote Timeline constructor: it receives an iterable of
segments, drops the empty (falsy) ones, stores them as a set (removing
duplicates) and keeps them sorted by (start, stop). -/
def mkTimeline (segs : List Segment) : List Segment :=
  List.insertionSort SegLe (segs.filter Segment.toBool).dedup

/-- The merge test inside `Timeline.support_iter`:
`if not possible_gap or possible_gap.duration < collar` where
`possible_gap = segment ^ new_segment`. -/
def mergeCond (collar : ℚ) (new_segment segment : Segment) : Bool :=
  !(segment.gap new_segment).toBool || decide ((segment.gap new_segment).duration < collar)

/-- The accumulation loop of `Timeline.support_iter`: extend the running
support segment while the merge test holds, otherwise emit it and restart
from the current segment. -/
def supportLoop (collar : ℚ) : Segment → List Segment → List Segment
  | cur, [] => [cur]
  | cur, seg :: rest =>
    if mergeCond collar cur seg then supportLoop collar (cur.union seg) rest
    else cur :: supportLoop collar seg rest

/-- `Timeline.support(collar)`: empty timeline maps to itself; otherwise
run the accumulation loop seeded with the first segment (the Python loop
re-visits the first segment, which is a no-op), then rebuild a Timeline
from the emitted segments. -/
def timelineSupport (collar : ℚ) (tl : List Segment) : List Segment :=
  match tl with
  | [] => []
  | first :: _ => mkTimeline (supportLoop collar first tl)

/-- pyannote.core Annot(ation): a stream identity `uri` plus labelled
tracks; each track entry is (segment, track name, speaker label).  The
class keeps at most one entry per (segment, track name) key. -/
structure Annot where
  uri : String
  tracks : List (Segment × String × String)
deriving DecidableEq

/-- Replace the entry holding key (seg, trk) or append a fresh one. -/
def upsertTrack : List (Segment × String × String) → Segment → String → String →
    List (Segment × String × String)
  | [], seg, trk, lab => [(seg, trk, lab)]
  | (s, t, l) :: rest, seg, trk, lab =>
    if s = seg ∧ t = trk then (seg, trk, lab) :: rest
    else (s, t, l) :: upsertTrack rest seg trk lab

/-- `Annotation.__setitem__`: "do not add empty track" — an empty (falsy)
segment is silently ignored; otherwise the label is stored under the
(segment, track) key. -/
def Annot.setTrack (a : Annot) (seg : Segment) (trk lab : String) : Annot :=
  if seg.toBool then { a with tracks := upsertTrack a.tracks seg trk lab } else a

/-- `Annotation.update(other)` (default copy=False, in place): copy every
(segment, track, label) of the other annotation into `a`. -/
def Annot.update (a b : Annot) : Annot :=
  b.tracks.foldl (fun acc x => acc.setTrack x.1 x.2.1 x.2.2) a

/-- `Annotation.labels()`: the distinct labels in use. -/
def Annot.labels (a : Annot) : List String :=
  (a.tracks.map (fun x => x.2.2)).dedup

/-- `Annotation.label_timeline(label)`: the Timeline of all segments
carrying the given label. -/
def Annot.label_timeline (a : Annot) (lab : String) : List Segment :=
  mkTimeline ((a.tracks.filter (fun x => x.2.2 == lab)).map (fun x => x.1))

/-- `Annotation.support(collar)`: per label, apply the collar-based
Timeline support, and rebuild an annotation over the same uri with fresh
track names (the Python code draws them from `string_generator()`;
distinct generated names are modelled as decimal indices). -/
def Annot.support (a : Annot) (collar : ℚ) : Annot :=
  let pairs := a.labels.flatMap
    (fun lab => (timelineSupport collar (a.label_timeline lab)).map (fun s => (s, lab)))
  { uri := a.uri, tracks := pairs.enum.map (fun x => (x.2.1, toString x.1, x.2.2)) }

/-- The list of intervals a given speaker label has in an annotation
(in stored track order, without re-sorting). -/
def Annot.segs (a : Annot) (lab : String) : List Segment :=
  (a.tracks.filter (fun x => x.2.2 == lab)).map (fun x => x.1)

/-- pyannote.core.SlidingWindow: maps buffer rows to wall-clock time. -/
structure SlidingWindow where
  duration : ℚ
  step : ℚ
  start : ℚ
deriving DecidableEq

/-- pyannote.core.SlidingWindowFeature: a (frames × channels) buffer
(modelled as a list of rows) plus its sliding window. -/
structure SlidingWindowFeature where
  data : List (List ℚ)
  sliding_window : SlidingWindow
deriving DecidableEq

/-- The Python exceptions `concat` can raise: IndexError from `chunks[0]`
on an empty list, ValueError from `np.concatenate` on shape mismatch. -/
inductive PyErr
  | indexError
  | valueError
deriving DecidableEq

/-- Shape admissibility of `np.concatenate(blocks, axis=0)`: every row of
every block must have one common length (numpy arrays sharing
`shape[1:]`). -/
def npOk (blocks : List (List (List ℚ))) : Bool :=
  decide ((blocks.flatten.map List.length).dedup.length ≤ 1)

/-- `np.concatenate(blocks, axis=0)`: stack all frame blocks along the
time axis, or raise ValueError on shape mismatch. -/
def np_concatenate (blocks : List (List (List ℚ))) : Except PyErr (List (List ℚ)) :=
  if npOk blocks then .ok blocks.flatten else .error .valueError

/-- `concat(chunks, collar=0.05)` from src/backend/utils.py: start from an
empty annotation carrying the first chunk's uri, update it with every
chunk's annotation while collecting the waveform buffers, apply the collar
support, rebuild a SlidingWindow from the first chunk's duration/step/start
and concatenate the buffers along axis 0. -/
def concat (chunks : List (Annot × SlidingWindowFeature)) (collar : ℚ) :
    Except PyErr (Annot × SlidingWindowFeature) :=
  match chunks with
  | [] => .error .indexError
  | (first_ann, first_waveform) :: _ =>
    let acc := chunks.foldl
      (fun acc c => (acc.1.update c.1, acc.2 ++ [c.2.data]))
      ((⟨first_ann.uri, []⟩ : Annot), ([] : List (List (List ℚ))))
    let ann := acc.1.support collar
    let window : SlidingWindow :=
      ⟨first_waveform.sliding_window.duration,
       first_waveform.sliding_window.step,
       first_waveform.sliding_window.start⟩
    match np_concatenate acc.2 with
    | .error e => .error e
    | .ok d => .ok (ann, ⟨d, window⟩)

/-- A speaker field in the JSON output: either the raw integer id or the
display name found in the mapping. -/
inductive SpeakerField
  | num (n : ℤ)
  | name (s : String)
deriving DecidableEq

/-- One output turn of `jsonify_transcription`. -/
structure TurnJson where
  speaker : SpeakerField
  text : String
  start : ℚ
  stop : ℚ
deriving DecidableEq

/-- `SPEAKER_MAPPING.get(speaker, speaker)`: the display name if the id is
mapped, the raw id otherwise.  SPEAKER_MAPPING is imported from `config`
(a module outside src/), so the mapping is a parameter here. -/
def speakerGet (mapping : List (ℤ × String)) (speaker : ℤ) : SpeakerField :=
  match mapping.lookup speaker with
  | some n => .name n
  | none => .num speaker

/-- `jsonify_transcription(transcription)`: build the output list by
appending one dict per (speaker, text, start, end) tuple, in input
order. -/
def jsonify_transcription (mapping : List (ℤ × String))
    (transcription : List (ℤ × String × ℚ × ℚ)) : List TurnJson :=
  transcription.foldl
    (fun result x =>
      result ++ [{ speaker := speakerGet mapping x.1, text := x.2.1,
                   start := x.2.2.1, stop := x.2.2.2 }])
    []

/-- A faster-whisper word object (fields read by `jsonify_word`). -/
structure WhisperWord where
  word : String
  start : ℚ
  stop : ℚ
  probability : ℚ
deriving DecidableEq

/-- A faster-whisper segment object (fields read by `jsonify_segment`). -/
structure WhisperSegment where
  seek : ℤ
  start : ℚ
  stop : ℚ
  text : String
  tokens : List ℤ
  temperature : ℚ
  avg_logprob : ℚ
  compression_ratio : ℚ
  no_speech_prob : ℚ
  id : ℤ
  words : List WhisperWord
deriving DecidableEq

/-- The `info` object returned by faster-whisper (only `language` is
read). -/
structure TranscriptionInfo where
  language : String
deriving DecidableEq

/-- The per-word JSON object produced by `jsonify_word`. -/
structure WordJson where
  word : String
  start : ℚ
  stop : ℚ
  probability : ℚ
  tokens : Option (List ℤ)
deriving DecidableEq

/-- The per-segment JSON object produced by `jsonify_segment`. -/
structure SegmentJson where
  seek : ℤ
  start : ℚ
  stop : ℚ
  text : String
  tokens : List ℤ
  temperature : ℚ
  avg_logprob : ℚ
  compression_ratio : ℚ
  no_speech_prob : ℚ
  id : ℤ
  words : List WordJson
deriving DecidableEq

/-- The document produced by `format_transcription`. -/
structure TranscriptionJson where
  language : String
  text : String
  segments : List SegmentJson
deriving DecidableEq

/-- `concatenate_segments(segments)`: fold the segment texts together with
`+=` starting from the empty string. -/
def concatenate_segments (segments : List WhisperSegment) : String :=
  segments.foldl (fun transcription_text s => transcription_text ++ s.text) ""

/-- `jsonify_word(word)`: serialize one word; `tokens` is always None. -/
def jsonify_word (w : WhisperWord) : WordJson :=
  { word := w.word, start := w.start, stop := w.stop,
    probability := w.probability, tokens := none }

/-- `jsonify_segment(segment)`: serialize one segment verbatim, expanding
its words through `jsonify_word`. -/
def jsonify_segment (s : WhisperSegment) : SegmentJson :=
  { seek := s.seek, start := s.start, stop := s.stop, text := s.text,
    tokens := s.tokens, temperature := s.temperature,
    avg_logprob := s.avg_logprob, compression_ratio := s.compression_ratio,
    no_speech_prob := s.no_speech_prob, id := s.id,
    words := s.words.map jsonify_word }

/-- `format_transcription(segments, info)`. -/
def format_transcription (segments : List WhisperSegment)
    (info : TranscriptionInfo) : TranscriptionJson :=
  { language := info.language,
    text := concatenate_segments segments,
    segments := segments.map jsonify_segment }

/-- The whitespace characters stripped by Python `int(str)` before
parsing (the ASCII ones; the label strings at hand are ASCII). -/
def isPySpace (c : Char) : Bool :=
  decide (c ∈ [' ', '\t', '\n', '\r', '\x0b', '\x0c'])

/-- The ASCII decimal digits accepted by Python `int(str)`. -/
def isPyDigit (c : Char) : Bool :=
  decide (c ∈ ['0', '1', '2', '3', '4', '5', '6', '7', '8', '9'])

/-- Numeric value of a decimal digit character. -/
def digitVal (c : Char) : ℤ :=
  ((c.toNat - '0'.toNat : ℕ) : ℤ)

/-- Value of a digit string read left to right in base 10. -/
def digitsVal (l : List Char) : ℤ :=
  l.foldl (fun acc c => acc * 10 + digitVal c) 0

/-- Continuation of a Python integer digit part: digits, with single
underscores allowed only between digits. -/
def pyDigitRest : List Char → Bool
  | [] => true
  | c :: rest =>
    if c = '_' then
      match rest with
      | [] => false
      | c2 :: rest2 => isPyDigit c2 && pyDigitRest rest2
    else isPyDigit c && pyDigitRest rest

/-- A Python integer digit part: nonempty, starts with a digit. -/
def pyDigitPart : List Char → Bool
  | [] => false
  | c :: rest => isPyDigit c && pyDigitRest rest

/-- Strip leading and trailing whitespace. -/
def pyStrip (l : List Char) : List Char :=
  ((l.dropWhile isPySpace).reverse.dropWhile isPySpace).reverse

/-- Python `int(str)`: optional surrounding whitespace, optional sign,
then a digit part; `none` models the ValueError raised otherwise. -/
def pyIntOfChars (l : List Char) : Option ℤ :=
  let l' := pyStrip l
  match l' with
  | [] => none
  | c :: rest =>
    if c = '+' then
      if pyDigitPart rest then some (digitsVal (rest.filter isPyDigit)) else none
    else if c = '-' then
      if pyDigitPart rest then some (-(digitsVal (rest.filter isPyDigit))) else none
    else
      if pyDigitPart l' then some (digitsVal (l'.filter isPyDigit)) else none

/-- Python slice `s[-2:]`: the final two characters, or the whole string
when it is shorter than two characters. -/
def pySliceLast2 (s : String) : List Char :=
  s.data.drop (s.data.length - 2)

/-- `extract_speaker_id(speaker_label)` from src/backend/utils.py:
`int(speaker_label[-2:])`, with ValueError (unparseable slice) and
TypeError (label is None, modelled as `none`) both caught, logged and
mapped to -1. -/
def extract_speaker_id (speaker_label : Option String) : ℤ :=
  match speaker_label with
  | none => -1
  | some s =>
    match pyIntOfChars (pySliceLast2 s) with
    | some speaker_number => speaker_number
    | none => -1

/-- An object store tracking the Python objects `concat` can reach: the
annotations and waveform features live in stores and the chunk list holds
references (indices), so that mutation of inputs is observable. -/
structure PyHeap where
  anns : List Annot
  wavs : List SlidingWindowFeature
deriving DecidableEq

/-- One iteration of the accumulation loop of `concat`, at heap level:
read the chunk's annotation object and the running annotation at `ref`,
write the updated running annotation back at `ref`, and append the
chunk's waveform buffer to the (fresh, local) data list. -/
def concatStep (ref : ℕ) (acc : Except PyErr (PyHeap × List (List (List ℚ))))
    (c : ℕ × ℕ) : Except PyErr (PyHeap × List (List (List ℚ))) :=
  match acc with
  | .error e => .error e
  | .ok (h, ds) =>
    match h.anns[c.1]?, h.anns[ref]?, h.wavs[c.2]? with
    | some b, some cur, some wv =>
      .ok ({ h with anns := h.anns.set ref (cur.update b) }, ds ++ [wv.data])
    | _, _, _ => .error .indexError

/-- Heap-level rendering of `concat`, making every object read and write
explicit.  `Annotation(uri=...)` allocates a fresh object at the end of
the annotation store; each loop iteration reads the chunk's annotation
and waveform and writes the updated running annotation back at its own
reference; `support`, `SlidingWindow(...)` and `np.concatenate` build new
values.  Dangling references map to IndexError. -/
def concatState (st : PyHeap) (chunks : List (ℕ × ℕ)) (collar : ℚ) :
    Except PyErr ((Annot × SlidingWindowFeature) × PyHeap) :=
  match chunks with
  | [] => .error .indexError
  | (a0, w0) :: _ =>
    match st.anns[a0]?, st.wavs[w0]? with
    | some first_ann, some first_waveform =>
      let ref := st.anns.length
      let st1 : PyHeap := { st with anns := st.anns ++ [⟨first_ann.uri, []⟩] }
      match chunks.foldl (concatStep ref) (.ok (st1, [])) with
      | .error e => .error e
      | .ok (st2, ds) =>
        match st2.anns[ref]? with
        | none => .error .indexError
        | some merged =>
          let window : SlidingWindow :=
            ⟨first_waveform.sliding_window.duration,
             first_waveform.sliding_window.step,
             first_waveform.sliding_window.start⟩
          match np_concatenate ds with
          | .error e => .error e
          | .ok d => .ok ((merged.support collar, ⟨d, window⟩), st2)
    | _, _ => .error .indexError

deriving instance DecidableEq for Except

/-- Splitting the accumulating fold of `concat` into its annotation part
and its waveform-buffer part. -/
theorem concat_fold_split (chunks : List (Annot × SlidingWindowFeature)) (a : Annot)
    (ds : List (List (List ℚ))) :
    chunks.foldl (fun acc c => (acc.1.update c.1, acc.2 ++ [c.2.data])) (a, ds)
      = (chunks.foldl (fun x c => x.update c.1) a, ds ++ chunks.map (fun c => c.2.data)) := by
  induction chunks generalizing a ds with
  | nil => simp
  | cons c cs ih => simp [ih]

/-- Unfolding of `concat` on a nonempty chunk list. -/
theorem concat_cons (a : Annot) (w : SlidingWindowFeature)
    (rest : List (Annot × SlidingWindowFeature)) (collar : ℚ) :
    concat ((a, w) :: rest) collar =
      match np_concatenate (((a, w) :: rest).map (fun c => c.2.data)) with
      | .error e => .error e
      | .ok d =>
        .ok ((((a, w) :: rest).foldl (fun x c => x.update c.1) (⟨a.uri, []⟩ : Annot)).support collar,
             ⟨d, ⟨w.sliding_window.duration, w.sliding_window.step, w.sliding_window.start⟩⟩) := by
  unfold concat
  dsimp only
  rw [concat_fold_split, List.nil_append]

/-- C2: for every chunk list accepted by `concat`, the returned waveform
has exactly as many frames as the input waveforms combined — the
concatenation along axis 0 neither drops nor truncates frames. -/
theorem concat_waveform_length (chunks : List (Annot × SlidingWindowFeature))
    (collar : ℚ) (ann : Annot) (w : SlidingWindowFeature)
    (h : concat chunks collar = .ok (ann, w)) :
    w.data.length = (chunks.map (fun c => c.2.data.length)).sum := by
  match chunks with
  | [] => exact absurd h (by simp [concat])
  | (a, wv) :: rest =>
    rw [concat_cons] at h
    cases hnp : np_concatenate (((a, wv) :: rest).map (fun c => c.2.data)) with
    | error e => rw [hnp] at h; cases h
    | ok d =>
      rw [hnp] at h
      have hd : d = (((a, wv) :: rest).map (fun c => c.2.data)).flatten := by
        unfold np_concatenate at hnp
        split at hnp
        · exact ((Except.ok.injEq _ _).mp hnp).symm
        · cases hnp
      have hw : w = ⟨d, ⟨wv.sliding_window.duration, wv.sliding_window.step,
          wv.sliding_window.start⟩⟩ := by
        cases h; rfl
      rw [hw, hd]
      simp [List.length_flatten, List.map_map, Function.comp_def]

/-- C2 witness: `concat` on chunks with 2 and 1 frames yields 3 frames. -/
theorem concat_waveform_length_witness :
    (SlidingWindowFeature.mk [[0], [1], [2]] ⟨1, 1, 0⟩).data.length
      = ([((⟨"u", []⟩ : Annot), (⟨[[0], [1]], ⟨1, 1, 0⟩⟩ : SlidingWindowFeature)),
          (⟨"u", []⟩, ⟨[[2]], ⟨1, 1, 2⟩⟩)].map (fun c => c.2.data.length)).sum :=
  concat_waveform_length
    [(⟨"u", []⟩, ⟨[[0], [1]], ⟨1, 1, 0⟩⟩), (⟨"u", []⟩, ⟨[[2]], ⟨1, 1, 2⟩⟩)]
    (mkRat 5 100) ⟨"u", []⟩ ⟨[[0], [1], [2]], ⟨1, 1, 0⟩⟩ (by decide)

/-- C4: the sliding window of the waveform returned by `concat` is
rebuilt from the first chunk's duration/step/start, so it equals the
first chunk's window; consequently two runs whose first chunks carry the
same window agree on the output window, whatever the later chunks (and in
particular their `start` values) are. -/
theorem concat_window_from_first_chunk :
    (∀ (chunks : List (Annot × SlidingWindowFeature)) (collar : ℚ) (ann : Annot)
        (w : SlidingWindowFeature) (c0 : Annot × SlidingWindowFeature),
        concat chunks collar = .ok (ann, w) → chunks.head? = some c0 →
        w.sliding_window = c0.2.sliding_window)
    ∧ (∀ (chunks chunks' : List (Annot × SlidingWindowFeature)) (collar collar' : ℚ)
        (ann : Annot) (w : SlidingWindowFeature) (ann' : Annot) (w' : SlidingWindowFeature),
        concat chunks collar = .ok (ann, w) →
        concat chunks' collar' = .ok (ann', w') →
        chunks.head?.map (fun c => c.2.sliding_window)
          = chunks'.head?.map (fun c => c.2.sliding_window) →
        w.sliding_window = w'.sliding_window) := by
  have part1 : ∀ (chunks : List (Annot × SlidingWindowFeature)) (collar : ℚ) (ann : Annot)
      (w : SlidingWindowFeature) (c0 : Annot × SlidingWindowFeature),
      concat chunks collar = .ok (ann, w) → chunks.head? = some c0 →
      w.sliding_window = c0.2.sliding_window := by
    intro chunks collar ann w c0 h hh
    match chunks with
    | [] => simp at hh
    | (a, wv) :: rest =>
      have hc0 : (a, wv) = c0 := by simpa using hh
      subst hc0
      rw [concat_cons] at h
      cases hnp : np_concatenate (((a, wv) :: rest).map (fun c => c.2.data)) with
      | error e => rw [hnp] at h; cases h
      | ok d =>
        rw [hnp] at h
        have hw : w = ⟨d, ⟨wv.sliding_window.duration, wv.sliding_window.step,
            wv.sliding_window.start⟩⟩ := by cases h; rfl
        rw [hw]
  refine ⟨part1, ?_⟩
  intro chunks chunks' collar collar' ann w ann' w' h h' hww
  match chunks, chunks' with
  | [], _ => exact absurd h (by simp [concat])
  | _ :: _, [] => exact absurd h' (by simp [concat])
  | c :: r, c' :: r' =>
    have e1 := part1 _ _ _ _ c h rfl
    have e2 := part1 _ _ _ _ c' h' rfl
    have e3 : c.2.sliding_window = c'.2.sliding_window := by simpa using hww
    rw [e1, e2, e3]

/-- C4 witness: with a first chunk whose window is (2, 1, 0), the output
window is (2, 1, 0) even though the second chunk starts elsewhere. -/
theorem concat_window_from_first_chunk_witness :
    (SlidingWindowFeature.mk [[0], [1]] ⟨2, 1, 0⟩).sliding_window
      = ((⟨"u", []⟩, (⟨[[0]], ⟨2, 1, 0⟩⟩ : SlidingWindowFeature)) :
          Annot × SlidingWindowFeature).2.sliding_window :=
  concat_window_from_first_chunk.1
    [(⟨"u", []⟩, ⟨[[0]], ⟨2, 1, 0⟩⟩), (⟨"u", []⟩, ⟨[[1]], ⟨2, 1, 9⟩⟩)]
    (mkRat 5 100) ⟨"u", []⟩ ⟨[[0], [1]], ⟨2, 1, 0⟩⟩
    (⟨"u", []⟩, ⟨[[0]], ⟨2, 1, 0⟩⟩) (by decide) (by decide)

/-- C3 (amended): on an empty chunk list `concat` raises a plain
IndexError from `chunks[0]` (fail fast, nothing returned); it performs no
sliding-window validation at all — any nonempty list whose buffers are
shape-compatible for `np.concatenate` succeeds, whatever the chunks'
duration/step/start are. -/
theorem concat_failure_modes :
    (∀ collar : ℚ, concat [] collar = .error .indexError)
    ∧ (∀ (chunks : List (Annot × SlidingWindowFeature)) (collar : ℚ),
        chunks ≠ [] → npOk (chunks.map (fun c => c.2.data)) = true →
        ∃ out, concat chunks collar = .ok out) := by
  constructor
  · intro collar; rfl
  · intro chunks collar hne hok
    match chunks with
    | [] => exact absurd rfl hne
    | (a, w) :: rest =>
      refine ⟨((((a, w) :: rest).foldl (fun x c => x.update c.1)
          (⟨a.uri, []⟩ : Annot)).support collar,
          ⟨(((a, w) :: rest).map (fun c => c.2.data)).flatten,
           ⟨w.sliding_window.duration, w.sliding_window.step, w.sliding_window.start⟩⟩), ?_⟩
      rw [concat_cons]
      rw [show np_concatenate (((a, w) :: rest).map (fun c => c.2.data))
          = Except.ok (((a, w) :: rest).map (fun c => c.2.data)).flatten from by
        unfold np_concatenate; rw [if_pos hok]]

/-- C3 counterexample: two chunks whose sliding windows disagree in
duration, step and start are merged without any error — no
SampleRateMismatchError (nor any other failure) is raised. -/
theorem concat_no_rate_check_cex :
    (concat [(⟨"u", []⟩, ⟨[[0]], ⟨1, 1, 0⟩⟩),
             (⟨"u", []⟩, ⟨[[1]], ⟨mkRat 1 4, mkRat 1 8, 7⟩⟩)] (mkRat 5 100)).isOk = true
    ∧ (SlidingWindow.mk 1 1 0) ≠ ⟨mkRat 1 4, mkRat 1 8, 7⟩ := by
  decide

/-- C3 witness: chunks with mismatched windows but compatible buffer
shapes satisfy the hypotheses of the amended theorem and succeed. -/
theorem concat_failure_modes_witness :
    ∃ out, concat [(⟨"u", []⟩, ⟨[[0]], ⟨1, 1, 0⟩⟩),
                   (⟨"u", []⟩, ⟨[[1]], ⟨mkRat 1 4, mkRat 1 8, 7⟩⟩)] (mkRat 3 100) = .ok out :=
  concat_failure_modes.2
    [(⟨"u", []⟩, ⟨[[0]], ⟨1, 1, 0⟩⟩), (⟨"u", []⟩, ⟨[[1]], ⟨mkRat 1 4, mkRat 1 8, 7⟩⟩)]
    (mkRat 3 100) (by decide) (by decide)

/-- The (segment, track name) keys of a track list — the dictionary keys
of a pyannote annotation. -/
def trackKeys (l : List (Segment × String × String)) : List (Segment × String) :=
  l.map (fun x => (x.1, x.2.1))

/-- Upserting a key that is not present appends the new entry. -/
theorem upsertTrack_append (l : List (Segment × String × String)) (seg : Segment)
    (trk lab : String) (h : ∀ x ∈ l, ¬(x.1 = seg ∧ x.2.1 = trk)) :
    upsertTrack l seg trk lab = l ++ [(seg, trk, lab)] := by
  induction l with
  | nil => rfl
  | cons x xs ih =>
    obtain ⟨s, t, lb⟩ := x
    rw [upsertTrack, if_neg (h (s, t, lb) (by simp))]
    rw [ih (fun y hy => h y (by simp [hy]))]
    rfl

/-- Folding `__setitem__` over real-segment tracks whose keys are fresh
for the receiving annotation simply appends them. -/
theorem foldl_setTrack_append (ts : List (Segment × String × String)) :
    ∀ (a : Annot), (∀ x ∈ ts, x.1.toBool = true) →
      (trackKeys a.tracks ++ trackKeys ts).Nodup →
      ts.foldl (fun acc x => acc.setTrack x.1 x.2.1 x.2.2) a = ⟨a.uri, a.tracks ++ ts⟩ := by
  induction ts with
  | nil => intro a _ _; simp
  | cons x xs ih =>
    intro a hreal hnodup
    have hkey : ∀ y ∈ a.tracks, ¬(y.1 = x.1 ∧ y.2.1 = x.2.1) := by
      intro y hy hcontra
      have hdisj := (List.nodup_append.mp hnodup).2.2
      exact hdisj
        (show (y.1, y.2.1) ∈ trackKeys a.tracks from List.mem_map_of_mem _ hy)
        (show (y.1, y.2.1) ∈ trackKeys (x :: xs) from by
          rw [hcontra.1, hcontra.2]; exact List.mem_cons_self _ _)
    have hset : a.setTrack x.1 x.2.1 x.2.2 = ⟨a.uri, a.tracks ++ [x]⟩ := by
      rw [Annot.setTrack, if_pos (hreal x (List.mem_cons_self _ _))]
      rw [upsertTrack_append a.tracks x.1 x.2.1 x.2.2 hkey]
    rw [List.foldl_cons, hset]
    rw [ih ⟨a.uri, a.tracks ++ [x]⟩ (fun y hy => hreal y (List.mem_cons_of_mem _ hy))
      (by simpa [trackKeys, List.append_assoc] using hnodup)]
    simp

/-- C6: on a single chunk, `concat` returns exactly that chunk's
annotation passed through the collar support, together with the waveform
unchanged (same buffer, same window). -/
theorem concat_single_chunk (a : Annot) (w : SlidingWindowFeature) (collar : ℚ)
    (hkeys : (trackKeys a.tracks).Nodup)
    (hreal : ∀ x ∈ a.tracks, x.1.toBool = true)
    (hw : npOk [w.data] = true) :
    concat [(a, w)] collar = .ok (a.support collar, w) := by
  rw [concat_cons]
  rw [show np_concatenate ([(a, w)].map (fun c => c.2.data)) = Except.ok w.data from by
    unfold np_concatenate
    rw [if_pos (by simpa using hw)]
    simp]
  have hfold : [(a, w)].foldl (fun x c => x.update c.1) (⟨a.uri, []⟩ : Annot) = a := by
    rw [List.foldl_cons, List.foldl_nil]
    show Annot.update ⟨a.uri, []⟩ a = a
    rw [Annot.update, foldl_setTrack_append a.tracks ⟨a.uri, []⟩ hreal
      (by simpa [trackKeys] using hkeys)]
    simp
  rw [hfold]

unseal Rat.add Rat.sub Rat.mul in
/-- C6 witness: a one-track single chunk goes through unchanged up to the
support pass. -/
theorem concat_single_chunk_witness :
    concat [((⟨"u", [(⟨0, 2⟩, "T", "A")]⟩ : Annot), (⟨[[0], [1]], ⟨1, 1, 0⟩⟩ :
        SlidingWindowFeature))] (mkRat 5 100)
      = .ok ((⟨"u", [(⟨0, 2⟩, "T", "A")]⟩ : Annot).support (mkRat 5 100),
             ⟨[[0], [1]], ⟨1, 1, 0⟩⟩) :=
  concat_single_chunk ⟨"u", [(⟨0, 2⟩, "T", "A")]⟩ ⟨[[0], [1]], ⟨1, 1, 0⟩⟩ (mkRat 5 100)
    (by decide) (by decide) (by decide)

/-- C8: the document built by `format_transcription` carries the info
language, a text equal to the separator-free in-order concatenation of
the segment texts, the verbatim per-segment serialization, and per-word
objects whose tokens field is always null. -/
theorem format_transcription_spec :
    ∀ (segments : List WhisperSegment) (info : TranscriptionInfo),
      (format_transcription segments info).language = info.language
      ∧ (format_transcription segments info).text
          = String.join (segments.map (fun s => s.text))
      ∧ (format_transcription segments info).segments = segments.map jsonify_segment
      ∧ ∀ sj ∈ (format_transcription segments info).segments,
          ∀ wj ∈ sj.words, wj.tokens = none := by
  intro segments info
  refine ⟨rfl, ?_, rfl, ?_⟩
  · show concatenate_segments segments = _
    simp [concatenate_segments, String.join, List.foldl_map]
  · intro sj hsj wj hwj
    have hsj' : sj ∈ segments.map jsonify_segment := hsj
    obtain ⟨s, _, rfl⟩ := List.mem_map.mp hsj'
    have hwj' : wj ∈ s.words.map jsonify_word := hwj
    obtain ⟨v, _, rfl⟩ := List.mem_map.mp hwj'
    rfl

/-- C8 witness: the word objects of a concrete formatted transcription
have a null tokens field. -/
theorem format_transcription_spec_witness :
    (WordJson.mk "hi" 0 1 (mkRat 9 10) none).tokens = none :=
  (format_transcription_spec
      [⟨0, 0, 1, " hi", [5], 0, 0, 0, 0, 0, [⟨"hi", 0, 1, mkRat 9 10⟩]⟩] ⟨"en"⟩).2.2.2
    (jsonify_segment ⟨0, 0, 1, " hi", [5], 0, 0, 0, 0, 0, [⟨"hi", 0, 1, mkRat 9 10⟩]⟩)
    (by decide) ⟨"hi", 0, 1, mkRat 9 10, none⟩ (by decide)

/-- Appending one image at a time is the same as mapping. -/
theorem foldl_append_map {α β : Type} (f : α → β) (l : List α) (acc : List β) :
    l.foldl (fun r x => r ++ [f x]) acc = acc ++ l.map f := by
  induction l generalizing acc with
  | nil => simp
  | cons x xs ih => simp [ih]

/-- C9: `jsonify_transcription` maps each (speaker, text, start, end)
tuple, in input order and without re-sorting, to a turn whose speaker
field is the mapped display name when the id is in the mapping and the
raw id otherwise; with mapping 0 to Alice, the example input yields
Alice followed by raw id 1. -/
theorem jsonify_transcription_spec :
    (∀ (mapping : List (ℤ × String)) (transcription : List (ℤ × String × ℚ × ℚ)),
      jsonify_transcription mapping transcription
        = transcription.map (fun x => ⟨speakerGet mapping x.1, x.2.1, x.2.2.1, x.2.2.2⟩))
    ∧ jsonify_transcription [(0, "Alice")] [(0, "hi", 0, 1), (1, "bye", 1, 2)]
        = [⟨.name "Alice", "hi", 0, 1⟩, ⟨.num 1, "bye", 1, 2⟩] := by
  constructor
  · intro mapping transcription
    rw [jsonify_transcription, foldl_append_map]
    simp
  · decide

/-- Membership form of the digit test. -/
theorem isPyDigit_mem (c : Char) (h : isPyDigit c = true) :
    c ∈ ['0', '1', '2', '3', '4', '5', '6', '7', '8', '9'] :=
  of_decide_eq_true h

/-- C7 (amended): `extract_speaker_id` parses the slice of up to the last
two characters with Python `int`.  When the final two characters are
digits the label maps to their two-digit value; when the slice does not
parse, or the label is absent (None), the sentinel -1 is returned; a
one-character numeric label such as "7" returns its digit value rather
than -1, because the slice `[-2:]` of a short string is the whole
string. -/
theorem extract_speaker_id_spec :
    (∀ (p : List Char) (c1 c2 : Char), isPyDigit c1 = true → isPyDigit c2 = true →
        extract_speaker_id (some ⟨p ++ [c1, c2]⟩) = 10 * digitVal c1 + digitVal c2)
    ∧ (∀ s : String, pyIntOfChars (pySliceLast2 s) = none →
        extract_speaker_id (some s) = -1)
    ∧ extract_speaker_id none = -1
    ∧ extract_speaker_id (some "SPEAKER_07") = 7
    ∧ extract_speaker_id (some "X") = -1
    ∧ extract_speaker_id (some "7") = 7 := by
  refine ⟨?_, ?_, rfl, by decide, by decide, by decide⟩
  · intro p c1 c2 h1 h2
    have hslice : pySliceLast2 ⟨p ++ [c1, c2]⟩ = [c1, c2] := by
      show (p ++ [c1, c2]).drop ((p ++ [c1, c2]).length - 2) = [c1, c2]
      rw [List.length_append]
      simp only [List.length_cons, List.length_nil, Nat.zero_add]
      rw [Nat.add_sub_cancel]
      exact List.drop_left p [c1, c2]
    simp only [extract_speaker_id, hslice]
    have hm1 := isPyDigit_mem c1 h1
    have hm2 := isPyDigit_mem c2 h2
    simp only [List.mem_cons, List.not_mem_nil, or_false] at hm1 hm2
    rcases hm1 with rfl | rfl | rfl | rfl | rfl | rfl | rfl | rfl | rfl | rfl <;>
      rcases hm2 with rfl | rfl | rfl | rfl | rfl | rfl | rfl | rfl | rfl | rfl <;> decide
  · intro s h
    simp [extract_speaker_id, h]

/-- C7 witness: a label ending in the digits 0 and 7 maps to 7. -/
theorem extract_speaker_id_spec_witness :
    extract_speaker_id (some ⟨['S', '0', '7']⟩) = 10 * digitVal '0' + digitVal '7' :=
  extract_speaker_id_spec.1 ['S'] '0' '7' (by decide) (by decide)

/-- C7 counterexample to the claim as stated: the one-character numeric
label "7" (shorter than 2 characters) yields 7, not the sentinel -1. -/
theorem extract_speaker_id_short_numeric_cex :
    extract_speaker_id (some "7") = 7 ∧ ("7" : String).length < 2 := by
  decide

/-- C10: `extract_speaker_id` depends only on the slice of the label's
final (up to) two characters; a three-digit id is truncated to its last
two digits ("SPEAKER_123" yields 23), and a label ending in "-1" yields
-1, indistinguishable from the parse-failure sentinel (as on "XX"). -/
theorem extract_speaker_id_last_two_only :
    (∀ s t : String, pySliceLast2 s = pySliceLast2 t →
        extract_speaker_id (some s) = extract_speaker_id (some t))
    ∧ extract_speaker_id (some "SPEAKER_123") = 23
    ∧ extract_speaker_id (some "A-1") = -1
    ∧ extract_speaker_id (some "XX") = -1 := by
  refine ⟨?_, by decide, by decide, by decide⟩
  intro s t h
  simp only [extract_speaker_id, h]

/-- C10 witness: the long label agrees with a short one sharing its final
two characters. -/
theorem extract_speaker_id_last_two_only_witness :
    extract_speaker_id (some "SPEAKER_123") = extract_speaker_id (some "B23") :=
  extract_speaker_id_last_two_only.1 "SPEAKER_123" "B23" (by decide)

/-- Setting the last cell of a one-longer list keeps the prefix. -/
theorem set_append_length {α : Type} (l : List α) (x v : α) :
    (l ++ [x]).set l.length v = l ++ [v] := by
  induction l with
  | nil => rfl
  | cons y ys ih => simp [List.set, ih]

/-- Errors are absorbed by the loop. -/
theorem foldl_concatStep_error (ref : ℕ) (cs : List (ℕ × ℕ)) (e : PyErr) :
    cs.foldl (concatStep ref) (.error e) = .error e := by
  induction cs with
  | nil => rfl
  | cons c cs ih => rw [List.foldl_cons]; exact ih

/-- Loop invariant: writes only land on the freshly allocated annotation
cell, so the heap stays the original store plus one extra cell, and the
waveform store is never written. -/
theorem foldl_concatStep_inv (st : PyHeap) (cs : List (ℕ × ℕ)) :
    ∀ (x : Annot) (ds : List (List (List ℚ))) (res : PyHeap × List (List (List ℚ))),
      cs.foldl (concatStep st.anns.length) (.ok (⟨st.anns ++ [x], st.wavs⟩, ds)) = .ok res →
      ∃ x', res.1 = ⟨st.anns ++ [x'], st.wavs⟩ := by
  induction cs with
  | nil =>
    intro x ds res h
    refine ⟨x, ?_⟩
    cases h
    rfl
  | cons c cs ih =>
    intro x ds res h
    rw [List.foldl_cons] at h
    rw [concatStep] at h
    cases hb : (⟨st.anns ++ [x], st.wavs⟩ : PyHeap).anns[c.1]? with
    | none =>
      rw [hb] at h
      rw [foldl_concatStep_error] at h
      cases h
    | some b =>
      cases hcur : (⟨st.anns ++ [x], st.wavs⟩ : PyHeap).anns[st.anns.length]? with
      | none =>
        rw [hb, hcur] at h
        rw [foldl_concatStep_error] at h
        cases h
      | some cur =>
        cases hwv : (⟨st.anns ++ [x], st.wavs⟩ : PyHeap).wavs[c.2]? with
        | none =>
          rw [hb, hcur, hwv] at h
          rw [foldl_concatStep_error] at h
          cases h
        | some wv =>
          rw [hb, hcur, hwv] at h
          dsimp only at h
          rw [show ((st.anns ++ [x]).set st.anns.length (cur.update b)) = st.anns ++ [cur.update b]
            from set_append_length st.anns x (cur.update b)] at h
          exact ih (cur.update b) (ds ++ [wv.data]) res h

/-- C5: `concat` never mutates its inputs.  At heap level, every
annotation object that existed before the call (in particular every input
chunk's annotation) holds exactly the same value afterwards, and the
waveform store is untouched; the only written cell is the freshly
allocated running annotation, which is invisible to the caller's
inputs. -/
theorem concatState_preserves_inputs (st : PyHeap) (chunks : List (ℕ × ℕ)) (collar : ℚ)
    (res : Annot × SlidingWindowFeature) (st' : PyHeap)
    (h : concatState st chunks collar = .ok (res, st')) :
    (∀ r, r < st.anns.length → st'.anns[r]? = st.anns[r]?) ∧ st'.wavs = st.wavs := by
  match chunks with
  | [] => exact absurd h (by simp [concatState])
  | (a0, w0) :: rest =>
    rw [concatState] at h
    cases ha : st.anns[a0]? with
    | none => rw [ha] at h; cases h
    | some first_ann =>
      cases hw : st.wavs[w0]? with
      | none => rw [ha, hw] at h; cases h
      | some first_waveform =>
        rw [ha, hw] at h
        dsimp only at h
        cases hf : ((a0, w0) :: rest).foldl (concatStep st.anns.length)
            (.ok (⟨st.anns ++ [⟨first_ann.uri, []⟩], st.wavs⟩, [])) with
        | error e => rw [hf] at h; cases h
        | ok pair =>
          obtain ⟨st2, ds⟩ := pair
          rw [hf] at h
          dsimp only at h
          obtain ⟨x', hx'⟩ := foldl_concatStep_inv st ((a0, w0) :: rest)
            ⟨first_ann.uri, []⟩ [] (st2, ds) hf
          cases hm : st2.anns[st.anns.length]? with
          | none => rw [hm] at h; cases h
          | some merged =>
            rw [hm] at h
            dsimp only at h
            cases hnp : np_concatenate ds with
            | error e => rw [hnp] at h; cases h
            | ok d =>
              rw [hnp] at h
              have hst' : st' = st2 := by cases h; rfl
              subst hst'
              have hst2 : st' = (⟨st.anns ++ [x'], st.wavs⟩ : PyHeap) := hx'
              have hanns : st'.anns = st.anns ++ [x'] := by rw [hst2]
              have hwavs : st'.wavs = st.wavs := by rw [hst2]
              refine ⟨?_, hwavs⟩
              intro r hr
              rw [hanns]
              exact List.getElem?_append_left hr

/-- C5 witness: running the heap-level `concat` on a one-chunk heap
leaves the input annotation cell and the waveform store unchanged. -/
theorem concatState_preserves_inputs_witness :
    (PyHeap.mk [⟨"u", []⟩, ⟨"u", []⟩] [⟨[[0]], ⟨1, 1, 0⟩⟩]).anns[0]?
      = (PyHeap.mk [⟨"u", []⟩] [⟨[[0]], ⟨1, 1, 0⟩⟩]).anns[0]? :=
  (concatState_preserves_inputs ⟨[⟨"u", []⟩], [⟨[[0]], ⟨1, 1, 0⟩⟩]⟩ [(0, 0)] (mkRat 5 100)
    (⟨"u", []⟩, ⟨[[0]], ⟨1, 1, 0⟩⟩) ⟨[⟨"u", []⟩, ⟨"u", []⟩], [⟨[[0]], ⟨1, 1, 0⟩⟩]⟩
    (by decide)).1 0 (by decide)

/-- Two intervals are collar-separated: there is a real (beyond-precision)
gap of at least `collar` seconds between the end of `s` and the start of
`t`. -/
def Separated (collar : ℚ) (s t : Segment) : Prop :=
  SEGMENT_PRECISION < t.start - s.stop ∧ collar ≤ t.start - s.stop

theorem SEGMENT_PRECISION_pos : 0 < SEGMENT_PRECISION := by decide

theorem Segment.toBool_iff (s : Segment) :
    s.toBool = true ↔ SEGMENT_PRECISION < s.stop - s.start :=
  decide_eq_true_iff

/-- The union of a real segment with anything is real. -/
theorem union_toBool (s t : Segment) (hs : s.toBool = true) :
    (s.union t).toBool = true := by
  rw [Segment.toBool_iff] at hs ⊢
  show SEGMENT_PRECISION < max s.stop t.stop - min s.start t.start
  have h1 := le_max_left s.stop t.stop
  have h2 := min_le_left s.start t.start
  linarith

/-- The support loop emits a nonempty list whose head starts where the
running segment starts, provided no later segment starts earlier. -/
theorem supportLoop_cons_head (collar : ℚ) (l : List Segment) :
    ∀ cur : Segment, (∀ x ∈ l, cur.start ≤ x.start) →
      ∃ h rest, supportLoop collar cur l = h :: rest ∧ h.start = cur.start := by
  induction l with
  | nil => intro cur _; exact ⟨cur, [], rfl, rfl⟩
  | cons seg segs ih =>
    intro cur hle
    rw [supportLoop]
    by_cases hm : mergeCond collar cur seg = true
    · rw [if_pos hm]
      have hstart : (cur.union seg).start = cur.start :=
        min_eq_left (hle seg (List.mem_cons_self _ _))
      obtain ⟨h, rest, heq, hh⟩ := ih (cur.union seg)
        (fun x hx => by rw [hstart]; exact hle x (List.mem_cons_of_mem _ hx))
      exact ⟨h, rest, heq, by rw [hh, hstart]⟩
    · rw [if_neg hm]
      exact ⟨cur, _, rfl, rfl⟩

/-- Every segment the support loop emits is real, provided the running
segment and all input segments are. -/
theorem supportLoop_real (collar : ℚ) (l : List Segment) :
    ∀ cur, cur.toBool = true → (∀ x ∈ l, x.toBool = true) →
      ∀ y ∈ supportLoop collar cur l, y.toBool = true := by
  induction l with
  | nil =>
    intro cur hcur _ y hy
    rw [supportLoop, List.mem_singleton] at hy
    exact hy ▸ hcur
  | cons seg segs ih =>
    intro cur hcur hall y hy
    rw [supportLoop] at hy
    by_cases hm : mergeCond collar cur seg = true
    · rw [if_pos hm] at hy
      exact ih (cur.union seg) (union_toBool _ _ hcur)
        (fun x hx => hall x (List.mem_cons_of_mem _ hx)) y hy
    · rw [if_neg hm] at hy
      rcases List.mem_cons.mp hy with rfl | hy'
      · exact hcur
      · exact ih seg (hall seg (List.mem_cons_self _ _))
          (fun x hx => hall x (List.mem_cons_of_mem _ hx)) y hy'

/-- When the merge test fails on a sorted pair with a real right segment,
the two are collar-separated. -/
theorem not_mergeCond_sep (collar : ℚ) (cur seg : Segment)
    (hseg : seg.toBool = true) (hle : cur.start ≤ seg.start)
    (hm : mergeCond collar cur seg = false) :
    Separated collar cur seg := by
  rw [mergeCond, Bool.or_eq_false_iff] at hm
  obtain ⟨h1, h2⟩ := hm
  have hg : (seg.gap cur).toBool = true := by
    cases hgb : (seg.gap cur).toBool
    · rw [hgb] at h1; cases h1
    · rfl
  have h2' : ¬ ((seg.gap cur).duration < collar) := of_decide_eq_false h2
  have hg' : SEGMENT_PRECISION < (seg.gap cur).stop - (seg.gap cur).start :=
    (Segment.toBool_iff _).mp hg
  have hmax : max seg.start cur.start = seg.start := max_eq_left hle
  have hgap_start : (seg.gap cur).start = min seg.stop cur.stop := rfl
  have hgap_stop : (seg.gap cur).stop = seg.start := by
    show max seg.start cur.start = seg.start
    exact hmax
  rw [Segment.toBool_iff] at hseg
  have hε := SEGMENT_PRECISION_pos
  rcases le_total cur.stop seg.stop with hcs | hcs
  · have hmin : min seg.stop cur.stop = cur.stop := min_eq_right hcs
    have hdur : (seg.gap cur).duration = seg.start - cur.stop := by
      rw [Segment.duration, if_pos hg, hgap_stop, hgap_start, hmin]
    rw [hgap_stop, hgap_start, hmin] at hg'
    exact ⟨hg', by have := not_lt.mp h2'; rw [hdur] at this; exact this⟩
  · exfalso
    have hmin : min seg.stop cur.stop = seg.stop := min_eq_left hcs
    rw [hgap_stop, hgap_start, hmin] at hg'
    linarith

/-- The segments the support loop emits form a collar-separated chain,
when fed real segments sorted by start. -/
theorem supportLoop_chain (collar : ℚ) (l : List Segment) :
    ∀ cur, cur.toBool = true → (∀ x ∈ l, x.toBool = true) →
      (∀ x ∈ l, cur.start ≤ x.start) →
      l.Pairwise (fun a b => a.start ≤ b.start) →
      (supportLoop collar cur l).Chain' (Separated collar) := by
  induction l with
  | nil => intro cur _ _ _ _; rw [supportLoop]; exact List.chain'_singleton _
  | cons seg segs ih =>
    intro cur hcur hall hle hpw
    rw [supportLoop]
    by_cases hm : mergeCond collar cur seg = true
    · rw [if_pos hm]
      have hstart : (cur.union seg).start = cur.start :=
        min_eq_left (hle seg (List.mem_cons_self _ _))
      exact ih (cur.union seg) (union_toBool _ _ hcur)
        (fun x hx => hall x (List.mem_cons_of_mem _ hx))
        (fun x hx => by rw [hstart]; exact hle x (List.mem_cons_of_mem _ hx))
        (List.pairwise_cons.mp hpw).2
    · rw [if_neg hm]
      have hsegstarts : ∀ x ∈ segs, seg.start ≤ x.start := (List.pairwise_cons.mp hpw).1
      have hsep : Separated collar cur seg :=
        not_mergeCond_sep collar cur seg (hall seg (List.mem_cons_self _ _))
          (hle seg (List.mem_cons_self _ _)) (by rwa [← Bool.not_eq_true])
      obtain ⟨hd, tl, heq, hhd⟩ := supportLoop_cons_head collar segs seg hsegstarts
      rw [heq]
      apply List.Chain'.cons
      · exact ⟨by rw [hhd]; exact hsep.1, by rw [hhd]; exact hsep.2⟩
      · rw [← heq]
        exact ih seg (hall seg (List.mem_cons_self _ _))
          (fun x hx => hall x (List.mem_cons_of_mem _ hx)) hsegstarts
          (List.pairwise_cons.mp hpw).2

/-- A collar-separated chain of real segments separates its head from
every later element. -/
theorem chain_sep_head (collar : ℚ) :
    ∀ (l : List Segment) (a : Segment), (a :: l).Chain' (Separated collar) →
      (∀ x ∈ a :: l, x.toBool = true) → ∀ b ∈ l, Separated collar a b := by
  intro l
  induction l with
  | nil => intro a _ _ b hb; cases hb
  | cons c l ih =>
    intro a hch hreal b hb
    have hac : Separated collar a c := (List.chain'_cons.mp hch).1
    rcases List.mem_cons.mp hb with rfl | hb'
    · exact hac
    · have hcb : Separated collar c b :=
        ih c (List.chain'_cons.mp hch).2
          (fun x hx => hreal x (List.mem_cons_of_mem _ hx)) b hb'
      have hc : c.toBool = true := hreal c (by simp)
      rw [Segment.toBool_iff] at hc
      obtain ⟨h1, h2⟩ := hac
      obtain ⟨h3, h4⟩ := hcb
      have hε := SEGMENT_PRECISION_pos
      exact ⟨by linarith, by linarith⟩

/-- A collar-separated chain of real segments is pairwise separated. -/
theorem chain_sep_pairwise (collar : ℚ) :
    ∀ (l : List Segment), l.Chain' (Separated collar) →
      (∀ x ∈ l, x.toBool = true) → l.Pairwise (Separated collar) := by
  intro l
  induction l with
  | nil => intro _ _; exact List.Pairwise.nil
  | cons a l ih =>
    intro hch hreal
    rw [List.pairwise_cons]
    refine ⟨chain_sep_head collar l a hch hreal, ?_⟩
    have htail : l.Chain' (Separated collar) := by
      cases l with
      | nil => exact List.chain'_nil
      | cons c l' => exact (List.chain'_cons.mp hch).2
    exact ih htail (fun x hx => hreal x (List.mem_cons_of_mem _ hx))

/-- Membership in a rebuilt Timeline: the real segments of the input. -/
theorem mem_mkTimeline {x : Segment} {l : List Segment} :
    x ∈ mkTimeline l ↔ x ∈ l ∧ x.toBool = true := by
  rw [mkTimeline, (List.perm_insertionSort SegLe _).mem_iff, List.mem_dedup, List.mem_filter]

/-- A rebuilt Timeline is sorted by (start, stop). -/
theorem mkTimeline_sorted (l : List Segment) : (mkTimeline l).Pairwise SegLe :=
  List.sorted_insertionSort SegLe _

/-- A rebuilt Timeline is sorted by start. -/
theorem mkTimeline_sorted_start (l : List Segment) :
    (mkTimeline l).Pairwise (fun a b => a.start ≤ b.start) :=
  (mkTimeline_sorted l).imp (fun h => by
    rcases h with h | ⟨h, _⟩
    · exact le_of_lt h
    · exact le_of_eq h)

/-- Building a Timeline out of one real segment keeps it. -/
theorem mkTimeline_single (s : Segment) (hs : s.toBool = true) :
    mkTimeline [s] = [s] := by
  rw [mkTimeline]
  rw [show ([s].filter Segment.toBool) = [s] from by rw [List.filter_cons_of_pos hs]; rfl]
  rfl

/-- Building a Timeline out of two distinct real segments already in
order keeps them. -/
theorem mkTimeline_pair (s t : Segment) (hs : s.toBool = true) (ht : t.toBool = true)
    (hne : s ≠ t) (hle : SegLe s t) : mkTimeline [s, t] = [s, t] := by
  rw [mkTimeline]
  rw [show ([s, t].filter Segment.toBool) = [s, t] from by
    rw [List.filter_cons_of_pos hs, List.filter_cons_of_pos ht]; rfl]
  rw [show ([s, t] : List Segment).dedup = [s, t] from by
    rw [List.dedup_cons_of_not_mem (by simp [List.mem_dedup, hne]),
      List.dedup_cons_of_not_mem (by simp), List.dedup_nil]]
  simp [List.insertionSort, List.orderedInsert, hle]

/-- The merge test, spelled out: on a pair sorted by start, the two
segments are merged exactly when the (possibly negative) gap either stays
within the segment precision or is strictly below the collar. -/
theorem mergeCond_iff (collar : ℚ) (s t : Segment) (hle : s.start ≤ t.start) :
    mergeCond collar s t = true ↔
      (t.start - min s.stop t.stop ≤ SEGMENT_PRECISION
        ∨ t.start - min s.stop t.stop < collar) := by
  have hgap_stop : (t.gap s).stop = t.start := max_eq_left hle
  have hgap_start : (t.gap s).start = min s.stop t.stop := min_comm t.stop s.stop
  rw [mergeCond, Bool.or_eq_true, Bool.not_eq_true', decide_eq_true_iff]
  constructor
  · rintro (h | h)
    · left
      have := (Segment.toBool_iff _).not.mp (by rw [h]; exact Bool.false_ne_true)
      rw [hgap_stop, hgap_start] at this
      linarith [not_lt.mp this]
    · by_cases hg : (t.gap s).toBool = true
      · right
        rw [Segment.duration, if_pos hg, hgap_stop, hgap_start] at h
        exact h
      · left
        have := (Segment.toBool_iff _).not.mp hg
        rw [hgap_stop, hgap_start] at this
        linarith [not_lt.mp this]
  · intro h
    by_cases hg : (t.gap s).toBool = true
    · right
      rw [Segment.duration, if_pos hg, hgap_stop, hgap_start]
      have hg' := (Segment.toBool_iff _).mp hg
      rw [hgap_stop, hgap_start] at hg'
      rcases h with h | h
      · linarith
      · exact h
    · left
      exact Bool.not_eq_true _ ▸ (Bool.eq_false_iff.mpr hg)

/-- The support of a two-segment timeline: one merged interval spanning
both when the merge test holds, the two original intervals otherwise. -/
theorem timelineSupport_pair (collar : ℚ) (s t : Segment)
    (hs : s.toBool = true) (ht : t.toBool = true) (hle : s.start ≤ t.start) :
    timelineSupport collar [s, t] =
      if mergeCond collar s t then [s.union t] else [s, t] := by
  rw [timelineSupport]
  have hself : mergeCond collar s s = true := by
    rw [mergeCond, Bool.or_eq_true]
    left
    rw [Bool.not_eq_true']
    rw [Bool.eq_false_iff]
    intro hb
    have := (Segment.toBool_iff _).mp hb
    have hs' := (Segment.toBool_iff s).mp hs
    have hstop : (s.gap s).stop = s.start := max_self _
    have hstart : (s.gap s).start = s.stop := min_self _
    rw [hstop, hstart] at this
    have hε := SEGMENT_PRECISION_pos
    linarith
  rw [supportLoop, if_pos hself]
  rw [show s.union s = s from by
    show (⟨min s.start s.start, max s.stop s.stop⟩ : Segment) = s
    rw [min_self, max_self]]
  rw [supportLoop]
  by_cases hm : mergeCond collar s t = true
  · rw [if_pos hm, if_pos hm, supportLoop]
    exact mkTimeline_single _ (union_toBool s t hs)
  · rw [if_neg hm, if_neg hm, supportLoop]
    have hsep : Separated collar s t :=
      not_mergeCond_sep collar s t ht hle (by rwa [← Bool.not_eq_true])
    have hs' := (Segment.toBool_iff s).mp hs
    have hε := SEGMENT_PRECISION_pos
    have hlt : s.start < t.start := by
      obtain ⟨h1, _⟩ := hsep
      linarith
    exact mkTimeline_pair s t hs ht
      (fun he => absurd (congrArg Segment.start he) (ne_of_lt hlt)) (Or.inl hlt)

/-- Any two distinct intervals in the support of a rebuilt timeline are
collar-separated (in one direction or the other). -/
theorem timelineSupport_sep (collar : ℚ) (raw : List Segment) :
    ∀ s ∈ timelineSupport collar (mkTimeline raw),
      ∀ t ∈ timelineSupport collar (mkTimeline raw),
        s ≠ t → Separated collar s t ∨ Separated collar t s := by
  intro s hs t ht hne
  cases htl : mkTimeline raw with
  | nil =>
    rw [htl] at hs
    exact absurd hs (by rw [timelineSupport]; simp)
  | cons first rest =>
    rw [htl] at hs ht
    rw [timelineSupport] at hs ht
    have hreal : ∀ x ∈ first :: rest, x.toBool = true := by
      intro x hx
      exact (mem_mkTimeline.mp (htl ▸ hx)).2
    have hstarts : (first :: rest).Pairwise (fun a b => a.start ≤ b.start) :=
      htl ▸ mkTimeline_sorted_start raw
    have hle : ∀ x ∈ first :: rest, first.start ≤ x.start := by
      intro x hx
      rcases List.mem_cons.mp hx with rfl | hx'
      · exact le_refl _
      · exact (List.pairwise_cons.mp hstarts).1 x hx'
    have hch := supportLoop_chain collar (first :: rest) first
      (hreal first (List.mem_cons_self _ _)) hreal hle hstarts
    have hrealout := supportLoop_real collar (first :: rest) first
      (hreal first (List.mem_cons_self _ _)) hreal
    have hpw := chain_sep_pairwise collar _ hch hrealout
    have hpw' : (supportLoop collar first (first :: rest)).Pairwise
        (fun a b => Separated collar a b ∨ Separated collar b a) :=
      hpw.imp Or.inl
    have hsym : Symmetric (fun a b => Separated collar a b ∨ Separated collar b a) :=
      fun a b h => h.symm
    exact hpw'.forall hsym (mem_mkTimeline.mp hs).1 (mem_mkTimeline.mp ht).1 hne

/-- Enumeration-based track renaming does not change the filtered
segment lists. -/
theorem enum_filter_snd (lab : String) (pairs : List (Segment × String)) :
    ((pairs.enum.filter (fun x => x.2.2 == lab)).map (fun x => x.2.1))
      = (pairs.filter (fun x => x.2 == lab)).map (fun x => x.1) := by
  have key : ∀ (ps : List (Segment × String)) (n : ℕ),
      (((ps.enumFrom n).filter (fun x => x.2.2 == lab)).map (fun x => x.2.1))
        = (ps.filter (fun x => x.2 == lab)).map (fun x => x.1) := by
    intro ps
    induction ps with
    | nil => intro n; rfl
    | cons p ps ih =>
      intro n
      rw [show (p :: ps).enumFrom n = (n, p) :: ps.enumFrom (n + 1) from rfl]
      rw [List.filter_cons, List.filter_cons]
      by_cases hp : (p.2 == lab) = true
      · rw [if_pos (show ((n, p).2.2 == lab) = true from hp), if_pos hp]
        rw [List.map_cons, List.map_cons, ih]
      · rw [if_neg (show ¬ ((n, p).2.2 == lab) = true from hp), if_neg hp, ih]
  exact key pairs 0

/-- Filtering a label out of the per-label grouped flatMap keeps exactly
that label's group, the labels being distinct. -/
theorem flatMap_group_filter (f : String → List Segment) (lab : String) :
    ∀ labs : List String, labs.Nodup →
      ((labs.flatMap (fun k => (f k).map (fun s => (s, k)))).filter
          (fun x => x.2 == lab)).map (fun x => x.1)
        = if lab ∈ labs then f lab else [] := by
  intro labs
  induction labs with
  | nil => intro _; simp
  | cons k labs ih =>
    intro hnd
    rw [List.flatMap_cons, List.filter_append, List.map_append]
    by_cases hk : k = lab
    · subst hk
      rw [if_pos (List.mem_cons_self _ _)]
      have hgrp : (((f k).map (fun s => (s, k))).filter
          (fun x => x.2 == k)).map (fun x => x.1) = f k := by
        rw [List.filter_map]
        rw [show ((fun (x : Segment × String) => x.2 == k) ∘ (fun s => (s, k)))
          = (fun _ => (k == k)) from rfl]
        simp only [beq_self_eq_true]
        rw [List.filter_true, List.map_map]
        rw [show ((fun (x : Segment × String) => x.1) ∘ (fun s => (s, k)))
          = (fun s => s) from rfl]
        exact List.map_id _
      have hrest : ((labs.flatMap (fun j => (f j).map (fun s => (s, j)))).filter
          (fun x => x.2 == k)).map (fun x => x.1) = [] := by
        rw [ih (List.nodup_cons.mp hnd).2, if_neg (List.nodup_cons.mp hnd).1]
      rw [hgrp, hrest, List.append_nil]
    · have hgrp0 : (((f k).map (fun s => (s, k))).filter
          (fun x => x.2 == lab)).map (fun x => x.1) = [] := by
        rw [List.filter_map]
        rw [show ((fun (x : Segment × String) => x.2 == lab) ∘ (fun s => (s, k)))
          = (fun _ => (k == lab)) from rfl]
        simp only [show (k == lab) = false from beq_eq_false_iff_ne.mpr hk]
        rw [List.filter_false]
        rfl
      rw [hgrp0, List.nil_append, ih (List.nodup_cons.mp hnd).2]
      by_cases hm : lab ∈ labs
      · rw [if_pos hm, if_pos (List.mem_cons_of_mem _ hm)]
      · rw [if_neg hm, if_neg (fun hcon => by
          rcases List.mem_cons.mp hcon with h | h
          · exact hk h.symm
          · exact hm h)]

/-- The per-label interval lists of a supported annotation are the
collar supports of the original per-label timelines. -/
theorem support_segs (a : Annot) (collar : ℚ) (lab : String) :
    (a.support collar).segs lab = timelineSupport collar (a.label_timeline lab) := by
  rw [Annot.support, Annot.segs]
  dsimp only
  rw [List.filter_map, List.map_map]
  rw [show ((fun (x : Segment × String × String) => x.2.2 == lab)
      ∘ (fun (x : ℕ × Segment × String) => (x.2.1, toString x.1, x.2.2)))
    = (fun (x : ℕ × Segment × String) => x.2.2 == lab) from rfl]
  rw [show ((fun (x : Segment × String × String) => x.1)
      ∘ (fun (x : ℕ × Segment × String) => (x.2.1, toString x.1, x.2.2)))
    = (fun (x : ℕ × Segment × String) => x.2.1) from rfl]
  rw [enum_filter_snd lab]
  rw [flatMap_group_filter (fun k => timelineSupport collar (a.label_timeline k)) lab
    a.labels (List.nodup_dedup _)]
  by_cases hm : lab ∈ a.labels
  · rw [if_pos hm]
  · rw [if_neg hm]
    have hfil : (a.tracks.filter (fun x => x.2.2 == lab)) = [] := by
      rw [List.filter_eq_nil_iff]
      intro x hx hpx
      exact hm (by
        rw [Annot.labels, List.mem_dedup]
        exact List.mem_map.mpr ⟨x, hx, eq_of_beq hpx⟩)
    rw [show a.label_timeline lab = [] from by rw [Annot.label_timeline, hfil]; rfl]
    rfl

unseal Rat.add Rat.sub Rat.mul in
/-- C1 (amended): per speaker, two adjacent intervals are merged into one
interval spanning both (start = min, end = max) exactly when their gap
(as the program computes it) is at most the segment precision (1e-6 s)
or STRICTLY below the collar; at inputs the program's floating-point
arithmetic evaluates exactly — such as dyadic times and collars — a gap
equal to the collar keeps them distinct.  The annotation returned by
`concat` never holds two distinct same-speaker intervals whose gap is
below the collar (or within precision).  Speaker-A intervals at 0 to 2
and 2.03 to 4 merge to a single 0-to-4 interval under collar 0.05 and
stay distinct under collar 0.01 (both verdicts hold robustly away from
the collar boundary, where rounding cannot flip the comparison). -/
theorem concat_collar_merge_spec :
    (∀ (collar : ℚ) (s t : Segment), s.toBool = true → t.toBool = true →
        s.start ≤ t.start →
        timelineSupport collar [s, t]
          = if t.start - min s.stop t.stop ≤ SEGMENT_PRECISION
               ∨ t.start - min s.stop t.stop < collar
            then [⟨min s.start t.start, max s.stop t.stop⟩]
            else [s, t])
    ∧ (∀ (chunks : List (Annot × SlidingWindowFeature)) (collar : ℚ) (ann : Annot)
          (w : SlidingWindowFeature),
        concat chunks collar = .ok (ann, w) →
        ∀ (lab : String) (s t : Segment),
          s ∈ ann.segs lab → t ∈ ann.segs lab → s ≠ t →
          Separated collar s t ∨ Separated collar t s)
    ∧ (concat [(⟨"u", [(⟨0, 2⟩, "0", "A"), (⟨mkRat 203 100, 4⟩, "1", "A")]⟩,
          ⟨[[0]], ⟨1, 1, 0⟩⟩)] (mkRat 5 100)).map (fun r => r.1.segs "A")
        = .ok [⟨0, 4⟩]
    ∧ (concat [(⟨"u", [(⟨0, 2⟩, "0", "A"), (⟨mkRat 203 100, 4⟩, "1", "A")]⟩,
          ⟨[[0]], ⟨1, 1, 0⟩⟩)] (mkRat 1 100)).map (fun r => r.1.segs "A")
        = .ok [⟨0, 2⟩, ⟨mkRat 203 100, 4⟩] := by
  refine ⟨?_, ?_, by decide, by decide⟩
  · intro collar s t hs ht hle
    rw [timelineSupport_pair collar s t hs ht hle]
    by_cases hm : mergeCond collar s t = true
    · rw [if_pos hm, if_pos ((mergeCond_iff collar s t hle).mp hm)]
      rfl
    · rw [if_neg hm, if_neg (fun hcond => hm ((mergeCond_iff collar s t hle).mpr hcond))]
  · intro chunks collar ann w h lab s t hs ht hne
    match chunks with
    | [] => exact absurd h (by simp [concat])
    | (a, wv) :: rest =>
      rw [concat_cons] at h
      cases hnp : np_concatenate (((a, wv) :: rest).map (fun c => c.2.data)) with
      | error e => rw [hnp] at h; cases h
      | ok d =>
        rw [hnp] at h
        have hann : ann = (((a, wv) :: rest).foldl (fun x c => x.update c.1)
            (⟨a.uri, []⟩ : Annot)).support collar := by cases h; rfl
        subst hann
        rw [support_segs, Annot.label_timeline] at hs ht
        exact timelineSupport_sep collar _ s hs t ht hne

unseal Rat.add Rat.sub Rat.mul in
/-- C1 counterexample to the claim as stated: with speaker-A intervals
0-to-2 and 2.0625-to-4 under collar 0.0625 the gap equals the collar
exactly (so the claimed "gap ≤ collar implies merged" applies), yet
`concat` keeps the two intervals distinct — the code merges only
strictly below the collar.  All times here (0, 2, 2.0625 = 2 + 1/16, 4)
and the collar 0.0625 = 1/16 are dyadic rationals that IEEE-754 doubles
represent exactly, and the one subtraction the code performs
(2.0625 - 2.0 = 0.0625) is exact in doubles, so at this input the
floating-point program computes exactly the rationals modelled here:
`0.0625 < 0.0625` is false in doubles just as in ℚ, and the real code
leaves the two intervals distinct. -/
theorem concat_collar_eq_boundary_cex :
    ((mkRat 33 16 : ℚ) - 2 ≤ mkRat 1 16)
    ∧ (concat [(⟨"u", [(⟨0, 2⟩, "0", "A"), (⟨mkRat 33 16, 4⟩, "1", "A")]⟩,
          ⟨[[0]], ⟨1, 1, 0⟩⟩)] (mkRat 1 16)).map (fun r => r.1.segs "A")
        = .ok [⟨0, 2⟩, ⟨mkRat 33 16, 4⟩] := by
  decide

unseal Rat.add Rat.sub Rat.mul in
/-- C1 witness: the two-interval characterization applied to the
intervals 0-to-2 and 2.03-to-4. -/
theorem concat_collar_merge_spec_witness :
    timelineSupport (mkRat 5 100) [⟨0, 2⟩, ⟨mkRat 203 100, 4⟩]
      = if (mkRat 203 100 : ℚ) - min 2 4 ≤ SEGMENT_PRECISION
           ∨ (mkRat 203 100 : ℚ) - min 2 4 < mkRat 5 100
        then [⟨min 0 (mkRat 203 100), max 2 4⟩]
        else [⟨0, 2⟩, ⟨mkRat 203 100, 4⟩] :=
  concat_collar_merge_spec.1 (mkRat 5 100) ⟨0, 2⟩ ⟨mkRat 203 100, 4⟩
    (by decide) (by decide) (by decide)
